import Mathlib

/-
  Verification development for the cursor-to-jira converter
  (`cursor_to_jira_converter.py`): a shallow embedding of the
  `CursorToJiraConverter.convert_text` pipeline over `List Char`,
  together with theorems settling the specification claims.

  Modelling conventions:
  * a Python `str` is a `List Char` (`Line`);
  * Python `str.strip()` / `lstrip()` strip the ASCII whitespace set;
  * each regular expression of the source is embedded as a bespoke
    matcher with Python `re` semantics (leftmost, non-overlapping,
    greedy or lazy exactly as the pattern demands); input lines come
    from splitting on a newline and therefore contain no newline, and
    the anchored matchers guard on that explicitly;
  * recursions that are not structural use an explicit fuel argument
    that is always initialised to a sufficient value (the length of
    the scanned list), so every definition is executable and
    kernel-reducible.
-/

set_option maxRecDepth 8000

namespace CursorToJira

abbrev Line := List Char

/-- The ASCII whitespace characters stripped by Python `str.strip`
and matched by the regex class `\s`. -/
def isPySpace (c : Char) : Bool :=
  c = ' ' || c = '\t' || c = '\n' || c = '\r' || c = '\x0b' || c = '\x0c'

/-- Python `str.lstrip()`. -/
def lstrip (s : Line) : Line := s.dropWhile isPySpace

/-- Python `str.rstrip()`. -/
def rstrip (s : Line) : Line := (s.reverse.dropWhile isPySpace).reverse

/-- Python `str.strip()`. -/
def strip (s : Line) : Line := rstrip (lstrip s)

/-- Python substring test `p in s`. -/
def containsSub (p : Line) : Line → Bool
  | [] => p.isEmpty
  | c :: t => p.isPrefixOf (c :: t) || containsSub p t

/-- True when the line contains no newline character. -/
def noNL (s : Line) : Bool := !s.any (· = '\n')

/-- Fuel-driven worker for `replaceAll`. -/
def replaceAllGo (p r : Line) : Nat → Line → Line
  | _, [] => []
  | 0, s => s
  | f + 1, c :: t =>
    if !p.isEmpty && p.isPrefixOf (c :: t) then
      r ++ replaceAllGo p r f (t.drop (p.length - 1))
    else
      c :: replaceAllGo p r f t

/-- Python `s.replace(p, r)`: replace every non-overlapping occurrence,
scanning left to right.  (Never called with an empty pattern.) -/
def replaceAll (p r s : Line) : Line := replaceAllGo p r s.length s

/-- Python `s.replace(p, r, 1)`: replace the first occurrence only. -/
def replaceFirst (p r : Line) : Line → Line
  | [] => []
  | c :: t =>
    if !p.isEmpty && p.isPrefixOf (c :: t) then
      r ++ t.drop (p.length - 1)
    else
      c :: replaceFirst p r t

/-- Python `text.split(sep)` for a one-character separator. -/
def splitOnChar (sep : Char) : Line → List Line
  | [] => [[]]
  | c :: t =>
    if c = sep then [] :: splitOnChar sep t
    else
      match splitOnChar sep t with
      | [] => [[c]]
      | h :: r => (c :: h) :: r

/-- Python `'\n'.join(lines)`. -/
def joinLines : List Line → Line
  | [] => []
  | [l] => l
  | l :: ls => l ++ '\n' :: joinLines ls

/-- Decimal digits of a natural number (for placeholder indices). -/
def natDigitsGo : Nat → Nat → Line
  | 0, _ => []
  | f + 1, n =>
    if n < 10 then [Char.ofNat (48 + n)]
    else natDigitsGo f (n / 10) ++ [Char.ofNat (48 + n % 10)]

/-- Decimal representation of a natural number. -/
def natDigits (n : Nat) : Line := natDigitsGo (n + 1) n

/-! ## The emoticon catalog (`self.jira_emoticons`) -/

/-- The `jira_emoticons` list of the converter, in source order. -/
def jira_emoticons : List Line :=
  ["(y)", "(n)", "(i)", "(!)", "(?)", "(on)", "(off)", "(*)", "(*r)",
   "(*g)", "(*b)", "(*y)", "(flag)", "(flagoff)", "(+)", "(-)", "(x)",
   "(/)"].map String.data

/-- Stable insertion for sorting by length, descending: an element is
placed after every element of length greater than or equal to its own,
exactly as Python's stable `sorted(key=len, reverse=True)` orders it. -/
def insertByLenDesc (x : Line) : List Line → List Line
  | [] => [x]
  | y :: ys => if y.length < x.length then x :: y :: ys else y :: insertByLenDesc x ys

/-- Python `sorted(xs, key=len, reverse=True)` (stable). -/
def sortByLenDesc (xs : List Line) : List Line :=
  xs.foldl (fun acc x => insertByLenDesc x acc) []

/-- `sorted(self.jira_emoticons, key=len, reverse=True)` as computed in
`_convert_line` and `_escape_jira_emoticons`. -/
def sorted_emoticons : List Line := sortByLenDesc jira_emoticons

/-- The placeholder `__EMOTICON_PLACEHOLDER_{k}__`. -/
def emoPlaceholder (k : Nat) : Line :=
  "__EMOTICON_PLACEHOLDER_".data ++ natDigits k ++ "__".data

/-- The placeholder `__BOLD_PLACEHOLDER_{k}__`. -/
def boldPlaceholder (k : Nat) : Line :=
  "__BOLD_PLACEHOLDER_".data ++ natDigits k ++ "__".data

/-! ## Inline rewriter (`_convert_line`) -/

/-- The emoticon-escaping stage of `_convert_line`: for each emoticon of
`sorted_emoticons` present in the text, replace every occurrence by the
next placeholder and record that the placeholder stands for a backslash
followed by the emoticon. -/
def escapeStageGo : List Line → Line → List (Line × Line) → Nat → Line × List (Line × Line)
  | [], txt, map, _ => (txt, map)
  | e :: es, txt, map, k =>
    if containsSub e txt then
      escapeStageGo es (replaceAll e (emoPlaceholder k) txt)
        (map ++ [(emoPlaceholder k, '\\' :: e)]) (k + 1)
    else
      escapeStageGo es txt map k

/-- Lines 589-602 of the source: emoticons to placeholders. -/
def escapeStage (line : Line) : Line × List (Line × Line) :=
  escapeStageGo sorted_emoticons line [] 0

/-- Resolve recorded placeholders back, in insertion order
(`for placeholder, replacement in d.items(): text.replace(...)`). -/
def restorePlaceholders (map : List (Line × Line)) (txt : Line) : Line :=
  map.foldl (fun t pr => replaceAll pr.1 pr.2 t) txt

/-- Lazy search for a closing delimiter: the least `j ≥ 1` such that
`close` starts at position `j` of `t` and the `j` skipped content
characters contain no newline — the semantics of a lazy `(.+?)` group
followed by the closing delimiter. -/
def lazyFindGo (close : Line) : Nat → Line → Option Nat
  | 0, _ => none
  | _ + 1, [] => none
  | f + 1, c :: rest =>
    if c = '\n' then none
    else if close.isPrefixOf rest then some 1
    else (lazyFindGo close f rest).map (· + 1)

/-- `lazyFindGo` with sufficient fuel. -/
def lazyFind (close t : Line) : Option Nat := lazyFindGo close t.length t

/-- All matches of the regex `\*\*(.+?)\*\*` in scan order, as pairs of
the whole match (`group(0)`) and the lazy group (`group(1)`); this is
what `re.finditer` yields in the bold pass. -/
def boldScanGo : Nat → Line → List (Line × Line)
  | 0, _ => []
  | _ + 1, [] => []
  | f + 1, c :: t =>
    if "**".data.isPrefixOf (c :: t) then
      let after := (c :: t).drop 2
      match lazyFind "**".data after with
      | some j =>
          ("**".data ++ after.take j ++ "**".data, after.take j)
            :: boldScanGo f (after.drop (j + 2))
      | none => boldScanGo f t
    else boldScanGo f t

/-- All bold matches of a line. -/
def boldScan (t : Line) : List (Line × Line) := boldScanGo t.length t

/-- The bold pass of `_convert_line`: for each match of the iterator
(taken on the text as it was before the loop), replace the first
occurrence of the matched text by the next bold placeholder and record
the single-asterisk Jira form `*group*` for it. -/
def boldStageGo : List (Line × Line) → Line → List (Line × Line) → Nat → Line × List (Line × Line)
  | [], txt, map, _ => (txt, map)
  | (full, content) :: ms, txt, map, k =>
    boldStageGo ms (replaceFirst full (boldPlaceholder k) txt)
      (map ++ [(boldPlaceholder k, '*' :: (content ++ ['*']))]) (k + 1)

/-- Lines 606-612 of the source: bold spans to placeholders. -/
def boldStage (txt : Line) : Line × List (Line × Line) :=
  boldStageGo (boldScan txt) txt [] 0

/-- Content search for the italic rule `\*([^*\n]+?)\*`: least `j ≥ 1`
with `t` carrying `'*'` at position `j` and no `'*'` or newline among
the first `j` characters. -/
def italicFindGo : Nat → Line → Option Nat
  | 0, _ => none
  | _ + 1, [] => none
  | f + 1, c :: rest =>
    if c = '*' || c = '\n' then none
    else if rest.head? = some '*' then some 1
    else (italicFindGo f rest).map (· + 1)

/-- `italicFindGo` with sufficient fuel. -/
def italicFind (t : Line) : Option Nat := italicFindGo t.length t

/-- `re.sub(r'\*([^*\n]+?)\*', r'_\1_', s)`. -/
def italicSubGo : Nat → Line → Line
  | 0, s => s
  | _ + 1, [] => []
  | f + 1, c :: t =>
    if c = '*' then
      match italicFind t with
      | some j => '_' :: (t.take j ++ '_' :: italicSubGo f (t.drop (j + 1)))
      | none => c :: italicSubGo f t
    else c :: italicSubGo f t

/-- The italic substitution pass. -/
def italicSub (s : Line) : Line := italicSubGo s.length s

/-- Generic lazy pair rule `open(.+?)close → wrapL\1wrapR`, used for the
`code_inline` and `strikethrough` patterns of the dictionary. -/
def pairSubGo (dOpen dClose wrapL wrapR : Line) : Nat → Line → Line
  | 0, s => s
  | _ + 1, [] => []
  | f + 1, c :: t =>
    if dOpen.isPrefixOf (c :: t) then
      let after := (c :: t).drop dOpen.length
      match lazyFind dClose after with
      | some j =>
          wrapL ++ after.take j ++ wrapR
            ++ pairSubGo dOpen dClose wrapL wrapR f (after.drop (j + dClose.length))
      | none => c :: pairSubGo dOpen dClose wrapL wrapR f t
    else c :: pairSubGo dOpen dClose wrapL wrapR f t

/-- ``re.sub(r'`(.+?)`', r'{{\1}}', s)`` — the `code_inline` rule. -/
def codeInlineSub (s : Line) : Line :=
  pairSubGo "`".data "`".data "\x7b\x7b".data "\x7d\x7d".data s.length s

/-- `re.sub(r'~~(.+?)~~', r'-\1-', s)` — the `strikethrough` rule. -/
def strikethroughSub (s : Line) : Line :=
  pairSubGo "~~".data "~~".data "-".data "-".data s.length s

/-- `re.sub(r'\[([^\]]+)\]\(([^)]+)\)', r'[\1|\2]', s)` — the `link`
rule.  The first group is the maximal nonempty run free of `]`, which
must be followed by `](`, then the maximal nonempty run free of `)`
followed by `)`. -/
def linkSubGo : Nat → Line → Line
  | 0, s => s
  | _ + 1, [] => []
  | f + 1, c :: t =>
    if c = '[' then
      let a := t.takeWhile (· ≠ ']')
      if a.isEmpty then c :: linkSubGo f t
      else
        match t.drop a.length with
        | ']' :: '(' :: r2 =>
          let b := r2.takeWhile (· ≠ ')')
          if b.isEmpty then c :: linkSubGo f t
          else
            match r2.drop b.length with
            | ')' :: r4 => '[' :: (a ++ '|' :: (b ++ ']' :: linkSubGo f r4))
            | _ => c :: linkSubGo f t
        | _ => c :: linkSubGo f t
    else c :: linkSubGo f t

/-- The link substitution pass. -/
def linkSub (s : Line) : Line := linkSubGo s.length s

/-- Header rule `^#..# (.+)$ → hN. \1` for `n` hash marks (patterns
`h2` … `h6`).  Anchored patterns only apply to newline-free text (the
per-line pipeline never produces a newline). -/
def hSub (n : Nat) (s : Line) : Line :=
  if (List.replicate n '#' ++ [' ']).isPrefixOf s && decide (n + 1 < s.length) && noNL s then
    'h' :: (natDigits n ++ '.' :: ' ' :: s.drop (n + 1))
  else s

/-- The `unordered_list` rule
`^(?!\*\*|#\*|#\*\*)[\s]*[-*+]\s+(.+)$ → * \1`, with the regex
backtracking on `\s+` when nothing is left for the final group. -/
def unorderedListSub (s : Line) : Line :=
  if "**".data.isPrefixOf s || "#*".data.isPrefixOf s || !noNL s then s
  else
    let r := s.drop (s.takeWhile isPySpace).length
    match r with
    | m :: r2 =>
      if m = '-' || m = '*' || m = '+' then
        let w2 := r2.takeWhile isPySpace
        let rest2 := r2.drop w2.length
        if w2.isEmpty then s
        else if !rest2.isEmpty then '*' :: ' ' :: rest2
        else if 2 ≤ w2.length then '*' :: ' ' :: w2.drop (w2.length - 1)
        else s
      else s
    | [] => s

/-- The `ordered_list` rule `^[\s]*\d+\.\s+(.+)$ → # \1`. -/
def orderedListSub (s : Line) : Line :=
  if !noNL s then s
  else
    let r := s.drop (s.takeWhile isPySpace).length
    let d := r.takeWhile Char.isDigit
    if d.isEmpty then s
    else
      match r.drop d.length with
      | '.' :: r2 =>
        let w2 := r2.takeWhile isPySpace
        let rest2 := r2.drop w2.length
        if w2.isEmpty then s
        else if !rest2.isEmpty then '#' :: ' ' :: rest2
        else if 2 ≤ w2.length then '#' :: ' ' :: w2.drop (w2.length - 1)
        else s
      | _ => s

/-- Whether a line matches the whole of `^\|[\s\-\|]+\|$` (the
`table_separator` pattern). -/
def isSepShape (s : Line) : Bool :=
  match s with
  | c :: rest =>
    c = '|' && decide (2 ≤ rest.length) && rest.getLast? = some '|'
      && (rest.dropLast.all fun b => isPySpace b || b = '-' || b = '|')
  | [] => false

/-- The `table_separator` rule: a full-line separator match is replaced
by the empty string. -/
def tableSeparatorSub (s : Line) : Line := if isSepShape s && noNL s then [] else s

/-- The `hr` rule `^---$ → ----`. -/
def hrSub (s : Line) : Line := if s = "---".data then "----".data else s

/-- The `blockquote` rule `^>\s*(.+)$ → {quote}\1{quote}`, again with
`\s*` backtracking when only whitespace follows the marker. -/
def blockquoteSub (s : Line) : Line :=
  if !noNL s then s
  else
    match s with
    | '>' :: u =>
      let rest := u.dropWhile isPySpace
      if !rest.isEmpty then "{quote}".data ++ rest ++ "{quote}".data
      else if !u.isEmpty then "{quote}".data ++ u.drop (u.length - 1) ++ "{quote}".data
      else s
    | _ => s

/-- The pattern-dictionary pass of `_convert_line`, in dictionary
order, skipping the four patterns the loop excludes (`code_block`,
`code_block_no_lang`, `table_header`, `table_row`). -/
def applyPatterns (s : Line) : Line :=
  strikethroughSub (blockquoteSub (hrSub (tableSeparatorSub (linkSub
    (orderedListSub (unorderedListSub (codeInlineSub
      (hSub 6 (hSub 5 (hSub 4 (hSub 3 (hSub 2 s))))))))))))

/-- `_convert_line`: emoticons to placeholders, bold spans to
placeholders, italic substitution, bold restoration, the pattern
dictionary, emoticon restoration.  (The final `#*` guard of the source
returns the same value on both paths.) -/
def convert_line (line : Line) : Line :=
  let e := escapeStage line
  let b := boldStage e.1
  restorePlaceholders e.2
    (applyPatterns (restorePlaceholders b.2 (italicSub b.1)))

/-! ## Table lines (`_convert_table_line`) -/

/-- `_convert_table_line`: when the stripped line starts and ends with
a pipe, drop the outer pipes, split the interior on `|`, strip each
cell, and rejoin with `||` delimiters when the line contains a double
pipe anywhere (header row) or `|` delimiters otherwise (data row); any
other line is returned unchanged. -/
def convert_table_line (line : Line) : Line :=
  let content := strip line
  if "|".data.isPrefixOf content && content.getLast? = some '|' then
    let cells := (splitOnChar '|' (content.drop 1).dropLast).map strip
    if "||".data.isPrefixOf (strip line) || containsSub "||".data line then
      "||".data ++ List.intercalate "||".data cells ++ "||".data
    else
      "|".data ++ List.intercalate "|".data cells ++ "|".data
  else line

/-! ## List normalization (`_convert_lists_with_nesting`) -/

/-- The regex test `re.match(r'^\d+\.\s+', s)`. -/
def matchNumDotSpace (s : Line) : Bool :=
  let d := s.takeWhile Char.isDigit
  !d.isEmpty &&
    match s.drop d.length with
    | '.' :: r => !(r.takeWhile isPySpace).isEmpty
    | _ => false

/-- `re.sub(r'^\d+\.\s+', '', s)`: drop the leading ordinal marker
(maximal digit run, dot, maximal whitespace run) when it matches. -/
def dropNumDotSpace (s : Line) : Line :=
  let d := s.takeWhile Char.isDigit
  if d.isEmpty then s
  else
    match s.drop d.length with
    | '.' :: r =>
      let w := r.takeWhile isPySpace
      if w.isEmpty then s else r.drop w.length
    | _ => s

/-- The test for an ordered-list head applied to a stripped line:
`stripped.startswith('#') and not stripped.startswith('##')` or
`re.match(r'^\d+\.\s+', stripped)`. -/
def isOrdinalHead (ns : Line) : Bool :=
  ("#".data.isPrefixOf ns && !("##".data.isPrefixOf ns)) || matchNumDotSpace ns

/-- The regex test `re.match(r'^[\s]*[-*+]\s+', line)`. -/
def matchUnordered (line : Line) : Bool :=
  match line.drop (line.takeWhile isPySpace).length with
  | m :: r => (m = '-' || m = '*' || m = '+') && !(r.takeWhile isPySpace).isEmpty
  | [] => false

/-- The look-ahead loop of `_convert_lists_with_nesting` that follows
an ordered-list head: it consumes unordered sub-items (emitting them
with a `#*` or `#**` nesting marker according to the leading-indent
width) and skips blank lines, and it stops at a horizontal rule
(signalling that a blank line must be inserted), at the next ordinal
head, or at any other content.  Returns the emitted lines, the
unconsumed remainder, and the found-horizontal-rule flag. -/
def lookAhead : List Line → List Line × List Line × Bool
  | [] => ([], [], false)
  | n :: rest =>
    let ns := strip n
    if ns = "---".data then ([], n :: rest, true)
    else if ("*".data.isPrefixOf ns || "-".data.isPrefixOf ns || "+".data.isPrefixOf ns)
        || ("   ".data.isPrefixOf n
            && ("*".data.isPrefixOf ns || "-".data.isPrefixOf ns || "+".data.isPrefixOf ns)) then
      let indent := n.length - (lstrip n).length
      let emitted := (if 6 ≤ indent then "#** ".data else "#* ".data) ++ strip (ns.drop 1)
      let t := lookAhead rest
      (emitted :: t.1, t.2.1, t.2.2)
    else if isOrdinalHead ns then ([], n :: rest, false)
    else if ns.isEmpty then lookAhead rest
    else ([], n :: rest, false)

/-- Fuel-driven worker for `_convert_lists_with_nesting`; the fuel
bounds the number of processed lines. -/
def convertListsGo : Nat → List Line → List Line
  | 0, ls => ls
  | _ + 1, [] => []
  | f + 1, line :: rest =>
    if isOrdinalHead (strip line) then
      ('#' :: ' ' ::
          (if "#".data.isPrefixOf (strip line) then strip ((strip line).drop 1)
           else dropNumDotSpace (strip line)))
        :: (lookAhead rest).1
        ++ (if (lookAhead rest).2.2 then [([] : Line)] else [])
        ++ convertListsGo f (lookAhead rest).2.1
    else if matchUnordered line && !("---".data.isPrefixOf (strip line)) then
      (if 2 ≤ line.length - (lstrip line).length
       then "<<<JIRALIST2>>>".data ++ strip ((strip line).drop 1)
       else '*' :: ' ' :: strip ((strip line).drop 1)) :: convertListsGo f rest
    else line :: convertListsGo f rest

/-- `_convert_lists_with_nesting`. -/
def convert_lists_with_nesting (ls : List Line) : List Line :=
  convertListsGo ls.length ls

/-! ## The main loop of `convert_text` -/

/-- The per-line loop of `convert_text`: code-fence toggling with
verbatim copying inside a fence, table-line handling (separator rows
dropped, other table lines through `_convert_table_line`), and
`_convert_line` for everything else.  The two flags are the
`in_code_block` and `in_table` state. -/
def processLines : Bool → Bool → List Line → List Line
  | _, _, [] => []
  | inCode, inTable, line :: rest =>
    if "```".data.isPrefixOf (strip line) then
      if !inCode then
        let lang := strip ((strip line).drop 3)
        (if !lang.isEmpty then "\x7bcode:".data ++ lang ++ "\x7d".data else "{code}".data)
          :: processLines true inTable rest
      else "{code}".data :: processLines false inTable rest
    else if inCode then line :: processLines inCode inTable rest
    else if line.contains '|' && "|".data.isPrefixOf (strip line) then
      if strip line = "|".data || isSepShape (strip line) then
        processLines inCode true rest
      else convert_table_line line :: processLines inCode true rest
    else convert_line line :: processLines inCode false rest

/-- The line pipeline of `convert_text`: list normalization followed by
the main loop. -/
def convertTextLines (ls : List Line) : List Line :=
  processLines false false (convert_lists_with_nesting ls)

/-- `convert_text`: split on newlines, run the line pipeline, join with
newlines, and resolve the `<<<JIRALIST2>>>` list placeholder to `** `. -/
def convert_text (s : Line) : Line :=
  replaceAll "<<<JIRALIST2>>>".data "** ".data
    (joinLines (convertTextLines (splitOnChar '\n' s)))

/-- `convert_text` on Lean strings. -/
def convert (s : String) : String := ⟨convert_text s.data⟩

/-! ## Basic lemmas about the string model -/

theorem containsSub_nil (p : Line) : containsSub p [] = p.isEmpty := rfl

theorem containsSub_cons (p : Line) (c : Char) (t : Line) :
    containsSub p (c :: t) = (p.isPrefixOf (c :: t) || containsSub p t) := rfl

/-- `containsSub` agrees with list-infix containment. -/
theorem containsSub_iff_isInfix {p s : Line} : containsSub p s = true ↔ p <:+: s := by
  induction s with
  | nil =>
    simp only [containsSub_nil, List.isEmpty_iff]
    constructor
    · intro h; simp [h]
    · intro h; simpa using List.sublist_nil.mp h.sublist
  | cons c t ih =>
    rw [containsSub_cons, List.infix_cons_iff, Bool.or_eq_true,
      List.isPrefixOf_iff_prefix, ih]

theorem contains_of_isInfix {p s s' : Line} (h : containsSub p s = true)
    (hss : s <:+: s') : containsSub p s' = true := by
  rw [containsSub_iff_isInfix] at h ⊢
  exact h.trans hss

theorem not_contains_of_isInfix {p s s' : Line} (h : containsSub p s' = false)
    (hss : s <:+: s') : containsSub p s = false := by
  cases hc : containsSub p s with
  | false => rfl
  | true => rw [contains_of_isInfix hc hss] at h; cases h

/-- A prefix of `u ++ c :: v` is a prefix of `u` or contains `c`. -/
theorem prefix_append_cons {q u v : Line} {c : Char}
    (h : q <+: u ++ c :: v) : q <+: u ∨ c ∈ q := by
  induction u generalizing q with
  | nil =>
    cases q with
    | nil => exact Or.inl List.nil_prefix
    | cons d q' =>
      obtain ⟨w, hw⟩ := h
      cases hw
      exact Or.inr (List.mem_cons_self _ _)
  | cons a u' ih =>
    cases q with
    | nil => exact Or.inl List.nil_prefix
    | cons d q' =>
      obtain ⟨w, hw⟩ := h
      simp only [List.cons_append] at hw
      obtain ⟨rfl, hw'⟩ := List.cons.inj hw
      rcases ih ⟨w, hw'⟩ with h' | h'
      · obtain ⟨w', hw''⟩ := h'
        exact Or.inl ⟨w', by rw [List.cons_append, hw'']⟩
      · exact Or.inr (List.mem_cons_of_mem _ h')

theorem contains_of_isPrefix {p s : Line} (h : p <+: s) : containsSub p s = true := by
  rw [containsSub_iff_isInfix]
  exact h.isInfix

/-- An occurrence in `xs ++ c :: ys` lies in `xs`, contains `c`, or lies
in `ys`. -/
theorem containsSub_append_cons {p xs ys : Line} {c : Char}
    (h : containsSub p (xs ++ c :: ys) = true) :
    containsSub p xs = true ∨ c ∈ p ∨ containsSub p ys = true := by
  induction xs with
  | nil =>
    rw [List.nil_append, containsSub_cons, Bool.or_eq_true] at h
    rcases h with h | h
    · rw [List.isPrefixOf_iff_prefix] at h
      cases p with
      | nil => exact Or.inl rfl
      | cons d q =>
        obtain ⟨w, hw⟩ := h
        cases hw
        exact Or.inr (Or.inl (List.mem_cons_self _ _))
    · exact Or.inr (Or.inr h)
  | cons x xs' ih =>
    rw [List.cons_append, containsSub_cons, Bool.or_eq_true] at h
    rcases h with h | h
    · rw [List.isPrefixOf_iff_prefix] at h
      rcases prefix_append_cons (u := x :: xs') h with h' | h'
      · exact Or.inl (contains_of_isPrefix h')
      · exact Or.inr (Or.inl h')
    · rcases ih h with h' | h'
      · exact Or.inl (contains_of_isInfix h' (List.infix_cons_iff.mpr (Or.inr (List.infix_refl _))))
      · exact Or.inr h'

/-- `strip`, `lstrip`, `rstrip` produce pieces of the original line. -/
theorem rstrip_isPrefix (s : Line) : rstrip s <+: s := by
  have h := List.dropWhile_suffix (l := s.reverse) isPySpace
  have : (s.reverse.dropWhile isPySpace).reverse.reverse <:+ s.reverse := by
    simpa using h
  rw [List.reverse_suffix] at this
  simpa [rstrip] using this

theorem lstrip_suffix (s : Line) : lstrip s <:+ s := List.dropWhile_suffix isPySpace

theorem strip_isInfix (s : Line) : strip s <:+: s :=
  ((rstrip_isPrefix (lstrip s)).isInfix).trans (lstrip_suffix s).isInfix

/-- A nonempty prefix determines the head of the larger list. -/
theorem head?_of_prefix {l₁ l₂ : Line} {c : Char} (h : l₁ <+: l₂)
    (hc : l₁.head? = some c) : l₂.head? = some c := by
  obtain ⟨w, rfl⟩ := h
  cases l₁ with
  | nil => cases hc
  | cons a t => simpa using hc

/-- The head of `strip s` is the head of `lstrip s`. -/
theorem lstrip_head?_of_strip {s : Line} {c : Char}
    (h : (strip s).head? = some c) : (lstrip s).head? = some c :=
  head?_of_prefix (rstrip_isPrefix (lstrip s)) h

/-- `lstrip` as a `drop` past the leading-whitespace run. -/
theorem lstrip_eq_drop (s : Line) :
    s.drop (s.takeWhile isPySpace).length = lstrip s := by
  nth_rewrite 2 [← List.takeWhile_append_dropWhile isPySpace s]
  rw [List.drop_left]
  rfl

/-! ## Lemmas about `replaceAll` -/

/-- `s.replace(p, r)` is the identity when `p` does not occur in `s`. -/
theorem replaceAllGo_of_not_contains {p r s : Line}
    (h : containsSub p s = false) : ∀ f, replaceAllGo p r f s = s := by
  intro f
  induction f generalizing s with
  | zero => cases s <;> rfl
  | succ f ih =>
    cases s with
    | nil => rfl
    | cons c t =>
      rw [containsSub_cons, Bool.or_eq_false_iff] at h
      rw [replaceAllGo, if_neg, ih h.2]
      simp [h.1]

theorem replaceAll_of_not_contains {p r s : Line}
    (h : containsSub p s = false) : replaceAll p r s = s :=
  replaceAllGo_of_not_contains h _

/-- Character disjointness of two strings. -/
def charDisj (a b : Line) : Prop := ∀ c, c ∈ a → c ∈ b → False

/-- With `p` and `r` sharing no character, an occurrence of `p` in
`r ++ x` is an occurrence in `x`. -/
theorem contains_append_of_disj {p r x : Line} (hp : p ≠ [])
    (hd : charDisj p r) (h : containsSub p (r ++ x) = true) :
    containsSub p x = true := by
  induction r with
  | nil => simpa using h
  | cons e r' ih =>
    rw [List.cons_append, containsSub_cons, Bool.or_eq_true] at h
    rcases h with h | h
    · rw [List.isPrefixOf_iff_prefix] at h
      cases p with
      | nil => exact absurd rfl hp
      | cons d q =>
        obtain ⟨w, hw⟩ := h
        obtain ⟨rfl, -⟩ := List.cons.inj hw
        exact absurd (hd d (List.mem_cons_self _ _) (List.mem_cons_self _ _)) not_false
    · exact ih (fun c hc hc' => hd c hc (List.mem_cons_of_mem _ hc')) h

theorem replaceAllGo_nil (p r : Line) (f : Nat) : replaceAllGo p r f [] = [] := by
  cases f <;> rfl

/-- With `q` and `r` sharing no character, a prefix of the replaced
text is a prefix of the original text. -/
theorem prefix_replaceAllGo {p r : Line} (hr : r ≠ []) :
    ∀ f s q, charDisj q r → q.isPrefixOf (replaceAllGo p r f s) = true →
      q.isPrefixOf s = true := by
  intro f
  induction f with
  | zero =>
    intro s q _ h
    cases s with
    | nil => simpa [replaceAllGo_nil] using h
    | cons c t => simpa [replaceAllGo] using h
  | succ f ih =>
    intro s q hd h
    cases s with
    | nil => simpa [replaceAllGo_nil] using h
    | cons c t =>
      rw [replaceAllGo] at h
      by_cases hb : (!p.isEmpty && p.isPrefixOf (c :: t)) = true
      · rw [if_pos hb] at h
        cases q with
        | nil => rfl
        | cons d q' =>
          cases r with
          | nil => exact absurd rfl hr
          | cons e r' =>
            rw [List.cons_append] at h
            simp only [List.isPrefixOf, Bool.and_eq_true, beq_iff_eq] at h
            obtain ⟨rfl, -⟩ := h
            exact absurd (hd d (List.mem_cons_self _ _) (List.mem_cons_self _ _)) not_false
      · rw [if_neg hb] at h
        cases q with
        | nil => rfl
        | cons d q' =>
          simp only [List.isPrefixOf, Bool.and_eq_true, beq_iff_eq] at h ⊢
          refine ⟨h.1, ih t q' (fun c hc hc' => hd c (List.mem_cons_of_mem _ hc) hc') h.2⟩

/-- With the replacement text sharing no character with `p'`, the
replacement pass creates no new occurrence of `p'`. -/
theorem not_contains_replaceAllGo {p p' r : Line} (hp' : p' ≠ [])
    (hr : r ≠ []) (hd : charDisj p' r) :
    ∀ f s, containsSub p' s = false →
      containsSub p' (replaceAllGo p r f s) = false := by
  intro f
  induction f with
  | zero =>
    intro s h
    cases s with
    | nil => simpa [replaceAllGo_nil] using h
    | cons c t => simpa [replaceAllGo] using h
  | succ f ih =>
    intro s h
    cases s with
    | nil => simpa [replaceAllGo_nil] using h
    | cons c t =>
      rw [containsSub_cons, Bool.or_eq_false_iff] at h
      rw [replaceAllGo]
      by_cases hb : (!p.isEmpty && p.isPrefixOf (c :: t)) = true
      · rw [if_pos hb]
        have htail : containsSub p' (t.drop (p.length - 1)) = false :=
          not_contains_of_isInfix h.2 (List.drop_suffix _ t).isInfix
        have hrec := ih _ htail
        cases hres : containsSub p' (r ++ replaceAllGo p r f (t.drop (p.length - 1))) with
        | false => rfl
        | true => rw [contains_append_of_disj hp' hd hres] at hrec; cases hrec
      · rw [if_neg hb, containsSub_cons, Bool.or_eq_false_iff]
        refine ⟨?_, ih t h.2⟩
        cases hpre : p'.isPrefixOf (c :: replaceAllGo p r f t) with
        | false => rfl
        | true =>
          exfalso
          cases p' with
          | nil => exact hp' rfl
          | cons d q' =>
            simp only [List.isPrefixOf, Bool.and_eq_true, beq_iff_eq] at hpre
            obtain ⟨rfl, hq'⟩ := hpre
            have : q'.isPrefixOf t = true :=
              prefix_replaceAllGo hr f t q'
                (fun c hc hc' => hd c (List.mem_cons_of_mem _ hc) hc') hq'
            have : (d :: q').isPrefixOf (d :: t) = true := by
              simp [List.isPrefixOf, this]
            rw [this] at h
            simpa using h.1

/-- With `p` and `r` sharing no character, the replacement pass removes
every occurrence of `p`. -/
theorem removal_replaceAllGo {p r : Line} (hp : p ≠ []) (hr : r ≠ [])
    (hd : charDisj p r) :
    ∀ f s, s.length ≤ f → containsSub p (replaceAllGo p r f s) = false := by
  intro f
  induction f with
  | zero =>
    intro s hs
    have hnil : s = [] := List.length_eq_zero.mp (Nat.le_zero.mp hs)
    subst hnil
    rw [replaceAllGo_nil]
    cases p with
    | nil => exact absurd rfl hp
    | cons d q => rfl
  | succ f ih =>
    intro s hs
    cases s with
    | nil =>
      rw [replaceAllGo_nil]
      cases p with
      | nil => exact absurd rfl hp
      | cons d q => rfl
    | cons c t =>
      rw [replaceAllGo]
      by_cases hb : (!p.isEmpty && p.isPrefixOf (c :: t)) = true
      · rw [if_pos hb]
        have hlen : (t.drop (p.length - 1)).length ≤ f := by
          have := List.length_drop (p.length - 1) t
          have ht : t.length ≤ f := by simpa using hs
          omega
        have hrec := ih _ hlen
        cases hres : containsSub p (r ++ replaceAllGo p r f (t.drop (p.length - 1))) with
        | false => rfl
        | true => rw [contains_append_of_disj hp hd hres] at hrec; cases hrec
      · rw [if_neg hb, containsSub_cons, Bool.or_eq_false_iff]
        have ht : t.length ≤ f := by simpa using hs
        refine ⟨?_, ih t ht⟩
        cases hpre : p.isPrefixOf (c :: replaceAllGo p r f t) with
        | false => rfl
        | true =>
          exfalso
          cases p with
          | nil => exact hp rfl
          | cons d q =>
            simp only [List.isPrefixOf, Bool.and_eq_true, beq_iff_eq] at hpre
            obtain ⟨rfl, hq⟩ := hpre
            have hqt : q.isPrefixOf t = true :=
              prefix_replaceAllGo hr f t q
                (fun c hc hc' => hd c (List.mem_cons_of_mem _ hc) hc') hq
            have : (d :: q).isPrefixOf (d :: t) = true := by
              simp [List.isPrefixOf, hqt]
            simp [List.isEmpty, this] at hb

/-! ## Totality of the emoticon-escaping stage -/

/-- Characters that may appear in an emoticon or bold placeholder:
underscore, the capital letters of the sentinel words, and decimal
digits. -/
def phChar (c : Char) : Prop :=
  c ∈ "_EMOTICNPLAHODRB".data ∨ ('0' ≤ c ∧ c ≤ '9')

instance : DecidablePred phChar := fun _ => by unfold phChar; infer_instance

theorem natDigitsGo_digits : ∀ f n c, c ∈ natDigitsGo f n → '0' ≤ c ∧ c ≤ '9' := by
  intro f
  induction f with
  | zero => intro n c h; simp [natDigitsGo] at h
  | succ f ih =>
    intro n c h
    rw [natDigitsGo] at h
    by_cases hn : n < 10
    · rw [if_pos hn] at h
      simp only [List.mem_singleton] at h
      subst h
      interval_cases n <;> decide
    · rw [if_neg hn] at h
      rw [List.mem_append] at h
      rcases h with h | h
      · exact ih _ _ h
      · simp only [List.mem_singleton] at h
        subst h
        have h10 : n % 10 < 10 := Nat.mod_lt _ (by omega)
        set m := n % 10 with hm
        clear_value m
        interval_cases m <;> decide

theorem emoPlaceholder_chars (k : Nat) (c : Char)
    (h : c ∈ emoPlaceholder k) : phChar c := by
  rw [emoPlaceholder, List.append_assoc, List.mem_append, List.mem_append] at h
  rcases h with h | h | h
  · exact Or.inl
      ((by decide : ∀ x ∈ "__EMOTICON_PLACEHOLDER_".data, x ∈ "_EMOTICNPLAHODRB".data) c h)
  · exact Or.inr (natDigitsGo_digits _ _ _ h)
  · exact Or.inl ((by decide : ∀ x ∈ "__".data, x ∈ "_EMOTICNPLAHODRB".data) c h)

theorem emoPlaceholder_ne_nil (k : Nat) : emoPlaceholder k ≠ [] := by
  intro h
  rw [emoPlaceholder, List.append_assoc, List.append_eq_nil] at h
  exact absurd h.1 (by decide)

/-- Every catalog entry is nonempty and shares no character with any
placeholder. -/
theorem sorted_emoticons_chars :
    ∀ e ∈ sorted_emoticons, e ≠ [] ∧ ∀ c ∈ e, ¬ phChar c := by
  decide

theorem emo_ph_disj {e : Line} (hch : ∀ c ∈ e, ¬ phChar c) (k : Nat) :
    charDisj e (emoPlaceholder k) :=
  fun c hce hcp => hch c hce (emoPlaceholder_chars k c hcp)

/-- Once a token is absent from the text, the remaining escaping steps
cannot reintroduce it: replacements only insert placeholder characters,
which no catalog token contains. -/
theorem escapeStageGo_pres :
    ∀ es txt map k e, e ≠ [] → (∀ c ∈ e, ¬ phChar c) →
      containsSub e txt = false →
      containsSub e (escapeStageGo es txt map k).1 = false := by
  intro es
  induction es with
  | nil => intro txt map k e _ _ h; exact h
  | cons e' es' ih =>
    intro txt map k e hne hch h
    rw [escapeStageGo]
    by_cases hc : containsSub e' txt = true
    · rw [if_pos hc]
      exact ih _ _ _ _ hne hch
        (not_contains_replaceAllGo hne (emoPlaceholder_ne_nil k)
          (emo_ph_disj hch k) _ txt h)
    · rw [if_neg hc]
      exact ih _ _ _ _ hne hch h

/-- After the escaping stage has processed its token list, no token of
that list occurs in the resulting text: its own step removed every
occurrence and later steps cannot recreate one. -/
theorem escapeStageGo_total :
    ∀ es txt map k, (∀ e' ∈ es, e' ≠ [] ∧ ∀ c ∈ e', ¬ phChar c) →
      ∀ e ∈ es, containsSub e (escapeStageGo es txt map k).1 = false := by
  intro es
  induction es with
  | nil => intro txt map k _ e he; cases he
  | cons e' es' ih =>
    intro txt map k hall e he
    have hall' : ∀ x ∈ es', x ≠ [] ∧ ∀ c ∈ x, ¬ phChar c :=
      fun x hx => hall x (List.mem_cons_of_mem _ hx)
    obtain ⟨hne', hch'⟩ := hall e' (List.mem_cons_self _ _)
    rw [escapeStageGo]
    rcases List.mem_cons.mp he with rfl | hes
    · by_cases hc : containsSub e txt = true
      · rw [if_pos hc]
        exact escapeStageGo_pres _ _ _ _ _ hne' hch'
          (removal_replaceAllGo hne' (emoPlaceholder_ne_nil k)
            (emo_ph_disj hch' k) _ txt le_rfl)
      · rw [if_neg hc]
        exact escapeStageGo_pres _ _ _ _ _ hne' hch'
          (Bool.not_eq_true _ ▸ eq_false_of_ne_true hc)
    · by_cases hc : containsSub e' txt = true
      · rw [if_pos hc]; exact ih _ _ _ hall' e hes
      · rw [if_neg hc]; exact ih _ _ _ hall' e hes

/-- No catalog emoticon survives the escaping stage of the inline
rewriter: every occurrence has been moved into a placeholder before the
emphasis and strikethrough passes run. -/
theorem escapeStage_total (line : Line) :
    ∀ e ∈ sorted_emoticons, containsSub e (escapeStage line).1 = false :=
  escapeStageGo_total _ _ _ _ sorted_emoticons_chars

/-! ## Lemmas about the list-normalization pass -/

/-- The look-ahead never lengthens the unconsumed remainder. -/
theorem lookAhead_rest_le : ∀ ls : List Line, (lookAhead ls).2.1.length ≤ ls.length := by
  intro ls
  induction ls with
  | nil => simp [lookAhead]
  | cons n rest ih =>
    rw [lookAhead]
    by_cases h1 : strip n = "---".data
    · simp [h1]
    · rw [if_neg h1]
      by_cases h2 : (("*".data.isPrefixOf (strip n) || "-".data.isPrefixOf (strip n)
          || "+".data.isPrefixOf (strip n))
          || ("   ".data.isPrefixOf n
              && ("*".data.isPrefixOf (strip n) || "-".data.isPrefixOf (strip n)
                  || "+".data.isPrefixOf (strip n)))) = true
      · rw [if_pos h2]
        exact Nat.le_succ_of_le ih
      · rw [if_neg h2]
        by_cases h3 : isOrdinalHead (strip n) = true
        · simp [h3]
        · rw [if_neg h3]
          by_cases h4 : (strip n).isEmpty = true
          · rw [if_pos h4]
            exact Nat.le_succ_of_le ih
          · simp [h4]

theorem convertListsGo_nil (f : Nat) : convertListsGo f [] = [] := by
  cases f <;> rfl

/-- Any sufficient fuel computes the same list normalization. -/
theorem convertListsGo_congr :
    ∀ f₁ f₂ ls, ls.length ≤ f₁ → ls.length ≤ f₂ →
      convertListsGo f₁ ls = convertListsGo f₂ ls := by
  intro f₁
  induction f₁ with
  | zero =>
    intro f₂ ls h₁ _
    have : ls = [] := List.length_eq_zero.mp (Nat.le_zero.mp h₁)
    subst this
    rw [convertListsGo_nil, convertListsGo_nil]
  | succ f₁ ih =>
    intro f₂ ls h₁ h₂
    cases ls with
    | nil => rw [convertListsGo_nil, convertListsGo_nil]
    | cons line rest =>
      cases f₂ with
      | zero => exact absurd (Nat.le_zero.mp h₂) (by simp)
      | succ f₂ =>
        have hr₁ : rest.length ≤ f₁ := by simpa using h₁
        have hr₂ : rest.length ≤ f₂ := by simpa using h₂
        rw [convertListsGo, convertListsGo]
        by_cases ho : isOrdinalHead (strip line) = true
        · rw [if_pos ho, if_pos ho]
          have hla := lookAhead_rest_le rest
          rw [ih f₂ _ (le_trans hla hr₁) (le_trans hla hr₂)]
        · rw [if_neg ho, if_neg ho]
          by_cases hu : (matchUnordered line && !("---".data.isPrefixOf (strip line))) = true
          · rw [if_pos hu, if_pos hu, ih f₂ rest hr₁ hr₂]
          · rw [if_neg hu, if_neg hu, ih f₂ rest hr₁ hr₂]

/-- One passthrough step of the list normalizer. -/
theorem convertLists_cons_passthrough {line : Line} (rest : List Line)
    (ho : isOrdinalHead (strip line) = false)
    (hu : (matchUnordered line && !("---".data.isPrefixOf (strip line))) = false) :
    convert_lists_with_nesting (line :: rest)
      = line :: convert_lists_with_nesting rest := by
  rw [convert_lists_with_nesting, List.length_cons, convertListsGo,
    if_neg (by simp [ho]), if_neg (by simp [hu])]
  rfl

/-- The list normalizer passes a block of non-list lines through
unchanged. -/
theorem convertLists_passthrough {ls : List Line}
    (h : ∀ l ∈ ls, isOrdinalHead (strip l) = false ∧ matchUnordered l = false) :
    convert_lists_with_nesting ls = ls := by
  induction ls with
  | nil => rfl
  | cons line rest ih =>
    obtain ⟨ho, hu⟩ := h line (List.mem_cons_self _ _)
    rw [convertLists_cons_passthrough rest ho (by simp [hu]),
      ih fun l hl => h l (List.mem_cons_of_mem _ hl)]

/-! ## Lemmas about splitting and joining -/

theorem splitOnChar_no_sep {sep : Char} {s : Line} (h : sep ∉ s) :
    splitOnChar sep s = [s] := by
  induction s with
  | nil => rfl
  | cons c t ih =>
    rw [splitOnChar, if_neg (by rintro rfl; exact h (List.mem_cons_self _ _)),
      ih (fun hm => h (List.mem_cons_of_mem _ hm))]

theorem splitOnChar_append_cons {sep : Char} {l : Line} (r : Line) (h : sep ∉ l) :
    splitOnChar sep (l ++ sep :: r) = l :: splitOnChar sep r := by
  induction l with
  | nil => simp [splitOnChar]
  | cons c t ih =>
    rw [List.cons_append, splitOnChar,
      if_neg (by rintro rfl; exact h (List.mem_cons_self _ _)),
      ih (fun hm => h (List.mem_cons_of_mem _ hm))]

theorem joinLines_cons {l : Line} {ls : List Line} (h : ls ≠ []) :
    joinLines (l :: ls) = l ++ '\n' :: joinLines ls := by
  cases ls with
  | nil => exact absurd rfl h
  | cons l' ls' => rfl

/-- Splitting inverts joining for newline-free lines. -/
theorem splitOnChar_joinLines {L : List Line} (hnl : ∀ l ∈ L, '\n' ∉ l)
    (hne : L ≠ []) : splitOnChar '\n' (joinLines L) = L := by
  induction L with
  | nil => exact absurd rfl hne
  | cons l ls ih =>
    cases ls with
    | nil => exact splitOnChar_no_sep (hnl l (List.mem_cons_self _ _))
    | cons l' ls' =>
      rw [joinLines_cons (by simp),
        splitOnChar_append_cons _ (hnl l (List.mem_cons_self _ _)),
        ih (fun x hx => hnl x (List.mem_cons_of_mem _ hx)) (by simp)]

/-- A newline-free pattern absent from every line is absent from the
joined text. -/
theorem not_contains_joinLines {p : Line} {L : List Line} (hp : p ≠ [])
    (hnl : '\n' ∉ p) (h : ∀ l ∈ L, containsSub p l = false) :
    containsSub p (joinLines L) = false := by
  induction L with
  | nil =>
    cases p with
    | nil => exact absurd rfl hp
    | cons c t => rfl
  | cons l ls ih =>
    cases ls with
    | nil => exact h l (List.mem_cons_self _ _)
    | cons l' ls' =>
      rw [joinLines_cons (by simp)]
      cases hres : containsSub p (l ++ '\n' :: joinLines (l' :: ls')) with
      | false => rfl
      | true =>
        exfalso
        rcases containsSub_append_cons hres with hc | hc | hc
        · rw [h l (List.mem_cons_self _ _)] at hc; cases hc
        · exact hnl hc
        · rw [ih (fun x hx => h x (List.mem_cons_of_mem _ hx))] at hc; cases hc

/-! ## Lines whose stripped form starts with a pipe -/

theorem strip_pipe_cons {line : Line}
    (h : "|".data.isPrefixOf (strip line) = true) :
    ∃ t, strip line = '|' :: t := by
  rw [List.isPrefixOf_iff_prefix] at h
  obtain ⟨w, hw⟩ := h
  exact ⟨w, by rw [← hw]; rfl⟩

/-- A line whose stripped form starts with a pipe is not an
ordered-list head. -/
theorem strip_pipe_not_ordinal {line : Line}
    (h : "|".data.isPrefixOf (strip line) = true) :
    isOrdinalHead (strip line) = false := by
  obtain ⟨t, ht⟩ := strip_pipe_cons h
  rw [ht, isOrdinalHead, matchNumDotSpace]
  simp [List.isPrefixOf, List.takeWhile, Char.isDigit]

/-- A line whose stripped form starts with a pipe does not match the
unordered-list prefix. -/
theorem strip_pipe_not_unordered {line : Line}
    (h : "|".data.isPrefixOf (strip line) = true) :
    matchUnordered line = false := by
  obtain ⟨t, ht⟩ := strip_pipe_cons h
  have hpre : strip line <+: lstrip line := rstrip_isPrefix (lstrip line)
  rw [ht] at hpre
  obtain ⟨w, hw⟩ := hpre
  rw [matchUnordered, lstrip_eq_drop, ← hw]
  rfl


/-- A line whose stripped form starts with a pipe is not a code fence. -/
theorem strip_pipe_not_fence {line : Line}
    (h : "|".data.isPrefixOf (strip line) = true) :
    "```".data.isPrefixOf (strip line) = false := by
  obtain ⟨t, ht⟩ := strip_pipe_cons h
  rw [ht]
  rfl

/-- A line whose stripped form starts with a pipe contains a pipe. -/
theorem strip_pipe_contains {line : Line}
    (h : "|".data.isPrefixOf (strip line) = true) :
    line.contains '|' = true := by
  obtain ⟨t, ht⟩ := strip_pipe_cons h
  have : '|' ∈ strip line := by rw [ht]; exact List.mem_cons_self _ _
  exact List.elem_iff.mpr ((strip_isInfix line).sublist.subset this)

/-! ## Step lemmas for the main loop -/

theorem processLines_fence_open (it : Bool) (rest : List Line) :
    processLines false it ("```".data :: rest)
      = "{code}".data :: processLines true it rest := rfl

theorem processLines_fence_close (it : Bool) (rest : List Line) :
    processLines true it ("```".data :: rest)
      = "{code}".data :: processLines false it rest := rfl

/-- Inside a code fence every non-fence line is copied verbatim. -/
theorem processLines_code_verbatim {body : List Line} (it : Bool)
    (tail : List Line)
    (h : ∀ b ∈ body, "```".data.isPrefixOf (strip b) = false) :
    processLines true it (body ++ tail) = body ++ processLines true it tail := by
  induction body with
  | nil => rfl
  | cons b body' ih =>
    rw [List.cons_append, processLines,
      if_neg (by simp [h b (List.mem_cons_self _ _)]), if_pos rfl,
      ih fun x hx => h x (List.mem_cons_of_mem _ hx)]
    rfl

/-- The table branch of the main loop: a line whose stripped form
starts with a pipe is dropped when it is the one-character line `|` or
matches the separator pattern, and otherwise goes through
`_convert_table_line`; the table flag is set either way. -/
theorem processLines_table_step {line : Line} (it : Bool) (rest : List Line)
    (hp : "|".data.isPrefixOf (strip line) = true) :
    processLines false it (line :: rest)
      = (if strip line = "|".data ∨ isSepShape (strip line) = true
         then ([] : List Line) else [convert_table_line line])
        ++ processLines false true rest := by
  rw [processLines, if_neg (by simp [strip_pipe_not_fence hp]), if_neg (by simp),
    if_pos (by rw [Bool.and_eq_true]; exact ⟨strip_pipe_contains hp, hp⟩)]
  by_cases hd : strip line = "|".data ∨ isSepShape (strip line) = true
  · rw [if_pos (by rcases hd with hd | hd <;> simp [hd]), if_pos hd, List.nil_append]
  · rw [if_neg (by push_neg at hd; simp [hd.1, hd.2]), if_neg hd]
    rfl

/-! ## Claim theorems -/

/-- Claim C2, counterexample: on the table source `|A|B|\n|--|--|\n|1|2|`
the converter does not return `||A||B||\n|1|2|` — the first row contains
no double pipe in the source, so it is not emitted with double-pipe
delimiters. -/
theorem C2_counterexample :
    convert "|A|B|\n|--|--|\n|1|2|" ≠ "||A||B||\n|1|2|" := by decide

/-- Claim C2, amended: `convert` applied to `|A|B|\n|--|--|\n|1|2|`
returns `|A|B|\n|1|2|`: the separator row is dropped, and both
remaining rows are emitted with single-pipe delimiters because neither
source row contains a literal `||`. -/
theorem C2_amended_table_scenario :
    convert "|A|B|\n|--|--|\n|1|2|" = "|A|B|\n|1|2|" := by decide

/-- Claim C3: evaluating the converter at the failing input.  The first
run of `convert` on `1. Item\n   - sub` yields `# Item\n#* sub`; the
second run re-parses the finalized nested marker line `#* sub` as an
ordinal head and mutates it to `# * sub`, while already-converted
header lines are indeed left unchanged. -/
theorem C3_code_behavior :
    convert "1. Item\n   - sub" = "# Item\n#* sub" ∧
    convert "# Item\n#* sub" = "# Item\n# * sub" ∧
    convert "h2. Header" = "h2. Header" := by decide

/-- Claim C7, counterexample: an input containing the placeholder-shaped
substring `<<<JIRALIST2>>>` as literal text does not keep it: the final
placeholder-resolution pass rewrites it. -/
theorem C7_counterexample :
    containsSub "<<<JIRALIST2>>>".data (convert_text "<<<JIRALIST2>>>x".data) = false ∧
    convert "<<<JIRALIST2>>>x" = "** x" := by decide

/-- Claim C7, amended: the pipeline's placeholders are only heuristically
unlikely, not collision-free: the resolution passes rewrite any matching
substring, including ones the input itself contained — a literal
`<<<JIRALIST2>>>` becomes `** `, and a literal
`__EMOTICON_PLACEHOLDER_0__` next to an emoticon is rewritten to the
emoticon's escaped form. -/
theorem C7_amended_placeholder_collision :
    convert "<<<JIRALIST2>>>x" = "** x" ∧
    convert "__EMOTICON_PLACEHOLDER_0__ (y)" = "\\(y) \\(y)" := by decide

/-- Claim C8: `convert_text` is total — every input string yields an
output string — and malformed input (unbalanced asterisks, an
unterminated code fence, a malformed table row) degrades to best-effort
output instead of being rejected. -/
theorem C8_convert_total :
    (∀ s : Line, ∃ t : Line, convert_text s = t) ∧
    convert "**unbalanced *asterisks" = "*_unbalanced _asterisks" ∧
    convert "```\ncode here" = "{code}\ncode here" ∧
    convert "|a|b" = "|a|b" :=
  ⟨fun s => ⟨convert_text s, rfl⟩, by decide, by decide, by decide⟩

/-- Claim C1, counterexample: the fence-interior line `- x` of the
input ```` ```\n- x\n``` ```` is not copied verbatim — the
list-normalization pre-pass turns it into `* x` before the code-fence
state is computed. -/
theorem C1_counterexample :
    convert "```\n- x\n```" = "{code}\n* x\n{code}" ∧
    containsSub "- x".data (convert_text "```\n- x\n```".data) = false := by decide

/-- Claim C4, counterexample: the catalog token `(y)` inside a code
fence reaches the output without any backslash, so escaping is not
total over the whole input. -/
theorem C4_counterexample :
    containsSub "(y)".data (convert_text "```\n(y)\n```".data) = true ∧
    containsSub "\\(y)".data (convert_text "```\n(y)\n```".data) = false := by decide

/-- Claim C5, counterexample: a sub-item whose leading indentation is a
single tab is emitted at the shallow tier `#*`, not at the deeper tier
`#**` that the claim assigns to a leading tab. -/
theorem C5_counterexample :
    convert "1. Item\n\t- sub" = "# Item\n#* sub" ∧
    containsSub "#**".data (convert_text "1. Item\n\t- sub".data) = false := by decide

/-- Claim C6, counterexample: the two-character line `||` consists only
of pipes, yet it is not dropped — it is emitted as `||||`. -/
theorem C6_counterexample :
    convert "||" = "||||" ∧
    (strip "||".data).all (fun c => c = '|' || c = '-' || isPySpace c) = true := by decide

/-- Claim C10, counterexample: a malformed table row containing the
literal text `<<<JIRALIST2>>>` is not emitted completely unchanged —
the final placeholder-resolution replace rewrites it. -/
theorem C10_counterexample :
    convert "|<<<JIRALIST2>>>" = "|** " ∧
    ("|<<<JIRALIST2>>>" : String) ≠ "|** " := by decide

/-- A separator-shaped line ends with a pipe. -/
theorem isSepShape_getLast {s : Line} (h : isSepShape s = true) :
    s.getLast? = some '|' := by
  cases s with
  | nil => cases h
  | cons c rest =>
    rw [isSepShape] at h
    simp only [Bool.and_eq_true, decide_eq_true_eq] at h
    obtain ⟨⟨⟨-, hlen⟩, hgl⟩, -⟩ := h
    cases rest with
    | nil => simp at hlen
    | cons b t =>
      rw [List.getLast?_cons_cons]
      simpa using hgl

/-- Claim C10, amended: a line outside a code fence whose stripped form
starts with `|` but does not end with `|` is passed through the list
normalizer untouched, the main loop emits it unchanged (no cell
splitting, no inline rewriting, no emoticon escaping), and — provided
the line does not contain the sentinel `<<<JIRALIST2>>>`, which the
final placeholder-resolution replace would rewrite — `convert_text` on
such a single-line document is the identity. -/
theorem C10_amended_malformed_row :
    ∀ line : Line,
      "|".data.isPrefixOf (strip line) = true →
      (strip line).getLast? ≠ some '|' →
      (∀ rest : List Line, ∀ it : Bool,
        processLines false it (line :: rest) = line :: processLines false true rest)
      ∧ (∀ rest : List Line,
        convert_lists_with_nesting (line :: rest) = line :: convert_lists_with_nesting rest)
      ∧ ('\n' ∉ line → containsSub "<<<JIRALIST2>>>".data line = false →
          convert_text line = line) := by
  intro line hp hlast
  have hdrop : ¬(strip line = "|".data ∨ isSepShape (strip line) = true) := by
    rintro (hd | hd)
    · exact hlast (by rw [hd]; rfl)
    · exact hlast (isSepShape_getLast hd)
  have htab : convert_table_line line = line := by
    rw [convert_table_line, if_neg]
    intro hc
    rw [Bool.and_eq_true] at hc
    exact hlast (by simpa using hc.2)
  have hstep : ∀ rest it,
      processLines false it (line :: rest) = line :: processLines false true rest := by
    intro rest it
    rw [processLines_table_step it rest hp, if_neg hdrop, htab]
    rfl
  have hlists : ∀ rest,
      convert_lists_with_nesting (line :: rest) = line :: convert_lists_with_nesting rest :=
    fun rest => convertLists_cons_passthrough rest (strip_pipe_not_ordinal hp)
      (by simp [strip_pipe_not_unordered hp])
  refine ⟨hstep, hlists, fun hnl hno => ?_⟩
  rw [convert_text, splitOnChar_no_sep hnl, convertTextLines, hlists, hstep]
  exact replaceAll_of_not_contains hno

/-- Claim C10, witness: the malformed row `|a|b` converts to itself. -/
theorem C10_witness : convert_text "|a|b".data = "|a|b".data :=
  (C10_amended_malformed_row "|a|b".data (by decide) (by decide)).2.2
    (by decide) (by decide)

/-- The header/data test of `_convert_table_line` reduces to the
double-pipe substring test on the raw line. -/
theorem table_header_test {line : Line} :
    ("||".data.isPrefixOf (strip line) || containsSub "||".data line)
      = containsSub "||".data line := by
  cases hc : containsSub "||".data line with
  | true => simp
  | false =>
    rw [Bool.or_eq_false_iff]
    refine ⟨?_, rfl⟩
    cases hpre : "||".data.isPrefixOf (strip line) with
    | false => rfl
    | true =>
      exfalso
      have h1 : containsSub "||".data (strip line) = true :=
        contains_of_isPrefix (List.isPrefixOf_iff_prefix.mp hpre)
      rw [contains_of_isInfix h1 (strip_isInfix line)] at hc
      cases hc

/-- Claim C6, amended: a table line (stripped form starting and ending
with `|`, outside a code fence) is dropped exactly when its stripped
form is the single character `|` or matches the separator shape (a
pipe, then at least one character drawn from whitespace, dashes and
pipes, then a pipe — so the two-character line `||` is NOT dropped);
any other table line is emitted with its outer pipes stripped, its
inner cells split on `|` and trimmed, rejoined with `||` delimiters
when the raw line contains `||` anywhere and with single `|` delimiters
otherwise. -/
theorem C6_amended_table_lines :
    (∀ line : Line,
      "|".data.isPrefixOf (strip line) = true →
      (strip line).getLast? = some '|' →
      ∀ rest : List Line, ∀ it : Bool,
        (strip line = "|".data ∨ isSepShape (strip line) = true →
          processLines false it (line :: rest) = processLines false true rest)
        ∧ (¬(strip line = "|".data ∨ isSepShape (strip line) = true) →
          processLines false it (line :: rest)
            = (if containsSub "||".data line = true
               then "||".data ++ List.intercalate "||".data
                  (List.map strip (splitOnChar '|' (((strip line).drop 1).dropLast)))
                  ++ "||".data
               else "|".data ++ List.intercalate "|".data
                  (List.map strip (splitOnChar '|' (((strip line).drop 1).dropLast)))
                  ++ "|".data)
              :: processLines false true rest))
    ∧ convert "| c | d |\n|x|" = "|c|d|\n|x|"
    ∧ convert "|a||b|" = "||a||||b||" := by
  refine ⟨?_, by decide, by decide⟩
  intro line hp hlast rest it
  constructor
  · intro hd
    rw [processLines_table_step it rest hp, if_pos hd, List.nil_append]
  · intro hd
    rw [processLines_table_step it rest hp, if_neg hd, convert_table_line,
      if_pos (by rw [Bool.and_eq_true]; exact ⟨hp, by simpa using hlast⟩)]
    rw [table_header_test]
    cases hc : containsSub "||".data line with
    | true => rfl
    | false => rfl

/-- Claim C6, witness: the data row `|x|` is neither `|` nor
separator-shaped, and is emitted with single-pipe delimiters. -/
theorem C6_witness : processLines false false ["|x|".data] = ["|x|".data] :=
  (((C6_amended_table_lines.1 "|x|".data (by decide) (by decide) [] false).2
    (by decide)).trans (by decide))

theorem singleton_isPrefixOf_iff {c : Char} {s : Line} :
    [c].isPrefixOf s = true ↔ s.head? = some c := by
  cases s with
  | nil => simp [List.isPrefixOf]
  | cons d t =>
    simp only [List.isPrefixOf, Bool.and_true, beq_iff_eq, List.head?_cons,
      Option.some.injEq]
    exact eq_comm

/-- The indentation width computed by the source
(`len(line) - len(line.lstrip())`) is the length of the
leading-whitespace run. -/
theorem indent_eq (n : Line) :
    n.length - (lstrip n).length = (n.takeWhile isPySpace).length := by
  rw [lstrip]
  nth_rewrite 1 [← List.takeWhile_append_dropWhile isPySpace n]
  rw [List.length_append]
  omega

/-- Claim C5, amended: a sub-item line consumed by the look-ahead after
an ordinal head is emitted with depth marker `#*` when its count of
leading whitespace characters is below six and `#**` when it is six or
more; the count is in characters, so a single leading tab counts as one
and yields `#*`, not the deeper tier.  The scenario
`1. Item\n   - sub` still yields `# Item\n#* sub`, and six spaces of
indentation yield `#**`. -/
theorem C5_amended_nesting_depth :
    (∀ n : Line, ∀ rest : List Line,
      ((strip n).head? = some '*' ∨ (strip n).head? = some '-' ∨ (strip n).head? = some '+') →
      strip n ≠ "---".data →
      (lookAhead (n :: rest)).1.head?
        = some ((if 6 ≤ (n.takeWhile isPySpace).length
                 then "#** ".data else "#* ".data) ++ strip ((strip n).drop 1)))
    ∧ convert "1. Item\n   - sub" = "# Item\n#* sub"
    ∧ convert "1. Item\n      - sub" = "# Item\n#** sub" := by
  refine ⟨?_, by decide, by decide⟩
  intro n rest hm hne
  have hsub : (("*".data.isPrefixOf (strip n) || "-".data.isPrefixOf (strip n)
      || "+".data.isPrefixOf (strip n))
      || ("   ".data.isPrefixOf n
          && ("*".data.isPrefixOf (strip n) || "-".data.isPrefixOf (strip n)
              || "+".data.isPrefixOf (strip n)))) = true := by
    have hin : ("*".data.isPrefixOf (strip n) || "-".data.isPrefixOf (strip n)
        || "+".data.isPrefixOf (strip n)) = true := by
      rw [Bool.or_eq_true, Bool.or_eq_true]
      rcases hm with hm | hm | hm
      · exact Or.inl (Or.inl (singleton_isPrefixOf_iff.mpr hm))
      · exact Or.inl (Or.inr (singleton_isPrefixOf_iff.mpr hm))
      · exact Or.inr (singleton_isPrefixOf_iff.mpr hm)
    simp [hin]
  rw [lookAhead, if_neg hne, if_pos hsub]
  rw [List.head?_cons, indent_eq]

/-- Claim C5, witness: the three-space-indented sub-item `   - sub` is
emitted as `#* sub`. -/
theorem C5_witness : (lookAhead ["   - sub".data]).1.head? = some "#* sub".data :=
  (C5_amended_nesting_depth.1 "   - sub".data [] (by decide) (by decide)).trans
    (by decide)

/-- Claim C9: a line whose stripped form is exactly `---` is never
consumed as an unordered-list marker.  (i) In the look-ahead after an
ordinal head it terminates the run without being consumed, even across
skipped blank lines, and raises the horizontal-rule flag; (ii) the
ordinal branch then emits exactly one blank line between the consumed
sub-items and the remainder that begins with the rule line; (iii) at
top level the list normalizer passes `---` through unchanged rather
than turning it into a `* ` bullet; (iv) look-ahead emissions all carry
a `#*` marker, so the single emitted blank is the only blank before the
rule; (v) the scenario `1. a\n- s\n---` converts to
`# a\n#* s\n\n----`. -/
theorem C9_horizontal_rule :
    (∀ blanks : List Line, ∀ hr : Line, ∀ rest : List Line,
      (∀ b ∈ blanks, strip b = []) → strip hr = "---".data →
      lookAhead (blanks ++ hr :: rest) = ([], hr :: rest, true))
    ∧ (∀ line : Line, ∀ rest : List Line,
      isOrdinalHead (strip line) = true → (lookAhead rest).2.2 = true →
      convert_lists_with_nesting (line :: rest)
        = ('#' :: ' ' ::
            (if "#".data.isPrefixOf (strip line) then strip ((strip line).drop 1)
             else dropNumDotSpace (strip line)))
          :: (lookAhead rest).1 ++ [[]]
          ++ convert_lists_with_nesting (lookAhead rest).2.1)
    ∧ (∀ rest : List Line,
      convert_lists_with_nesting ("---".data :: rest)
        = "---".data :: convert_lists_with_nesting rest)
    ∧ (∀ ls : List Line, ∀ e ∈ (lookAhead ls).1, "#*".data.isPrefixOf e = true)
    ∧ convert "1. a\n- s\n---" = "# a\n#* s\n\n----" := by
  refine ⟨?_, ?_, ?_, ?_, by decide⟩
  · intro blanks hr rest hb hhr
    induction blanks with
    | nil => rw [List.nil_append, lookAhead, if_pos hhr]
    | cons b bs ih =>
      have hsb : strip b = [] := hb b (List.mem_cons_self _ _)
      rw [List.cons_append, lookAhead, if_neg (by rw [hsb]; decide),
        if_neg (by rw [hsb]; simp), if_neg (by rw [hsb]; decide),
        if_pos (by rw [hsb]; rfl)]
      exact ih fun x hx => hb x (List.mem_cons_of_mem _ hx)
  · intro line rest ho hhr
    rw [convert_lists_with_nesting, List.length_cons, convertListsGo, if_pos ho,
      if_pos hhr,
      convertListsGo_congr rest.length ((lookAhead rest).2.1).length _
        (lookAhead_rest_le rest) le_rfl]
    rfl
  · intro rest
    rw [convert_lists_with_nesting, List.length_cons, convertListsGo,
      if_neg (by decide), if_neg (by decide)]
    rfl
  · intro ls
    induction ls with
    | nil => intro e he; cases he
    | cons n rest ih =>
      intro e he
      rw [lookAhead] at he
      by_cases h1 : strip n = "---".data
      · rw [if_pos h1] at he; cases he
      · rw [if_neg h1] at he
        by_cases h2 : (("*".data.isPrefixOf (strip n) || "-".data.isPrefixOf (strip n)
            || "+".data.isPrefixOf (strip n))
            || ("   ".data.isPrefixOf n
                && ("*".data.isPrefixOf (strip n) || "-".data.isPrefixOf (strip n)
                    || "+".data.isPrefixOf (strip n)))) = true
        · rw [if_pos h2] at he
          rcases List.mem_cons.mp he with rfl | he'
          · cases hi : (6 ≤ n.length - (lstrip n).length : Bool) with
            | true => rw [if_pos (by simpa using hi)]; rfl
            | false => rw [if_neg (by simpa using hi)]; rfl
          · exact ih e he'
        · rw [if_neg h2] at he
          by_cases h3 : isOrdinalHead (strip n) = true
          · rw [if_pos h3] at he; cases he
          · rw [if_neg h3] at he
            by_cases h4 : (strip n).isEmpty = true
            · rw [if_pos h4] at he; exact ih e he
            · rw [if_neg h4] at he; cases he

/-- Claim C9, witness: the ordinal head `1. a` directly followed by a
rule line normalizes to the head, one blank line, and the untouched
rule line. -/
theorem C9_witness :
    convert_lists_with_nesting ["1. a".data, "---".data]
      = ["# a".data, [], "---".data] :=
  (C9_horizontal_rule.2.1 "1. a".data ["---".data] (by decide) (by decide)).trans
    (by decide)

/-- Claim C1, amended: the main loop does copy fence-interior lines
verbatim — no inline rewriting and no emoticon escaping — but the
list-normalization pre-pass runs before fence detection, so a
list-marker-shaped line inside a fence is still rewritten, and the
final placeholder-resolution replace also reaches inside fences.  For a
fenced document whose body lines are not list-shaped and do not contain
the `<<<JIRALIST2>>>` sentinel, the body is byte-for-byte identical in
input and output. -/
theorem C1_amended_fence_verbatim :
    ∀ body : List Line,
      (∀ b ∈ body, isOrdinalHead (strip b) = false ∧ matchUnordered b = false
        ∧ "```".data.isPrefixOf (strip b) = false
        ∧ containsSub "<<<JIRALIST2>>>".data b = false ∧ '\n' ∉ b) →
      convert_text (joinLines ("```".data :: body ++ ["```".data]))
        = joinLines ("{code}".data :: body ++ ["{code}".data]) := by
  intro body h
  rw [convert_text]
  rw [splitOnChar_joinLines (L := "```".data :: body ++ ["```".data])
    (by
      intro l hl
      rcases List.mem_cons.mp hl with rfl | hl
      · decide
      · rcases List.mem_append.mp hl with hl | hl
        · exact (h l hl).2.2.2.2
        · rw [List.mem_singleton.mp hl]; decide)
    (by simp)]
  rw [convertTextLines,
    convertLists_passthrough (by
      intro l hl
      rcases List.mem_cons.mp hl with rfl | hl
      · exact ⟨by decide, by decide⟩
      · rcases List.mem_append.mp hl with hl | hl
        · exact ⟨(h l hl).1, (h l hl).2.1⟩
        · rw [List.mem_singleton.mp hl]; exact ⟨by decide, by decide⟩)]
  rw [show ("```".data :: body ++ ["```".data])
      = "```".data :: (body ++ ["```".data]) from rfl,
    processLines_fence_open,
    processLines_code_verbatim false ["```".data] (fun b hb => (h b hb).2.2.1),
    processLines_fence_close]
  apply replaceAll_of_not_contains
  apply not_contains_joinLines (by decide) (by decide)
  intro l hl
  rcases List.mem_cons.mp hl with rfl | hl
  · decide
  · rcases List.mem_append.mp hl with hl | hl
    · exact (h l hl).2.2.2.1
    · rw [List.mem_singleton.mp hl]; decide

/-- Claim C1, witness: a fence around the line `print(1)` converts to
the fence delimiters around the identical line. -/
theorem C1_witness :
    convert_text (joinLines ("```".data :: ["print(1)".data] ++ ["```".data]))
      = joinLines ("{code}".data :: ["print(1)".data] ++ ["{code}".data]) :=
  C1_amended_fence_verbatim ["print(1)".data] (by decide)

/-- Claim C4, amended: cataloged-emoticon escaping happens in the
inline rewriter, not on code-fence content or table lines.  (i) The
catalog is processed longest-first — the stable length-descending sort
puts `(flagoff)` before `(flag)` and `(*r)`, `(*g)`, `(*b)`, `(*y)`
before `(*)`; (ii) for every line, after the escaping stage of
`_convert_line` no catalog token occurs in the working text any more —
every occurrence has been captured in a placeholder before the
emphasis and strikethrough rewrites run, which is why those rewrites
never alter an escaped token; (iii) on a line the inline rewriter
processes, tokens emerge prefixed with exactly one backslash even when
surrounded by bold and strikethrough markup, with the longer tokens
escaped as themselves; (iv) a table line is emitted without escaping. -/
theorem C4_amended_escaping :
    sorted_emoticons
      = ["(flagoff)", "(flag)", "(off)", "(on)", "(*r)", "(*g)", "(*b)", "(*y)",
         "(y)", "(n)", "(i)", "(!)", "(?)", "(*)", "(+)", "(-)", "(x)",
         "(/)"].map String.data
    ∧ (∀ line : Line, ∀ e ∈ sorted_emoticons,
        containsSub e (escapeStage line).1 = false)
    ∧ convert "(y) **(n)** ~~(x)~~ (flagoff)(flag)(*r)(*)"
        = "\\(y) *\\(n)* -\\(x)- \\(flagoff)\\(flag)\\(*r)\\(*)"
    ∧ convert "|(y)|x|" = "|(y)|x|" :=
  ⟨by decide, fun line => escapeStage_total line, by decide, by decide⟩

/-- Claim C4, witness: after the escaping stage, the token `(y)` no
longer occurs in the working text of the line `see (y) here`. -/
theorem C4_witness :
    containsSub "(y)".data (escapeStage "see (y) here".data).1 = false :=
  C4_amended_escaping.2.1 "see (y) here".data "(y)".data (by decide)

end CursorToJira


